import Mathlib

/-!
# Sharkey server: enrollment and known-hosts dump

A shallow embedding of `server/enroll.go` and `server/known_hosts.go`.

Conventions of the embedding.

* A Go `string` (and the textual `[]byte` request body) is a Lean `String`;
  binary data (`[]byte` holding a nonce, a key file, marshalled bytes) is a
  `List Nat` of byte values.
* A Go `error` value is its message, a `String`; a function returning
  `(T, error)` returns `Except String T`.
* A run-time panic (nil pointer dereference, index out of range) is `none` of
  an `Option`.
* `uint64` values are `Nat`; conversions from `int64` reduce modulo `2 ^ 64`.
* Everything the code obtains from outside the two files (file system, random
  source, clock, the `ssh`, `time`, `x509` libraries, storage faults, among
  them a row iteration that fails part-way) is read from an explicit
  environment `Env`.
* The `hostkeys` table is explicit state (`DB`), threaded through the calls.
-/

namespace Sharkey

/-! ## Go standard library: `strings` -/

namespace strings

/-- Go `strings.HasSuffix`: `len(s) >= len(suffix) && s[len(s)-len(suffix):] == suffix`. -/
def HasSuffix (s suffix : String) : Bool :=
  decide (suffix.data.length ≤ s.data.length) &&
    decide (s.data.drop (s.data.length - suffix.data.length) = suffix.data)

/-- Go `strings.TrimSuffix`: `s[:len(s)-len(suffix)]` when `HasSuffix(s, suffix)`, else `s`. -/
def TrimSuffix (s suffix : String) : String :=
  if HasSuffix s suffix then ⟨s.data.take (s.data.length - suffix.data.length)⟩ else s

end strings

/-! ## Go standard library: `time` -/

namespace time

/-- A `time.Time` as the code observes it: whole seconds since the Unix epoch
and the nanoseconds within the second. -/
structure Time where
  sec : Int
  nsec : Int
  deriving DecidableEq, Repr

/-- Go `Time.Add(d)` for a `Duration` of `d` nanoseconds: `d / 1e9` whole
seconds (truncated towards zero) are added, `d % 1e9` nanoseconds are added to
the nanosecond field, and one second is carried or borrowed to keep the
nanosecond field in range. -/
def Time.Add (t : Time) (d : Int) : Time :=
  let dsec := Int.tdiv d 1000000000
  let nsec := t.nsec + Int.tmod d 1000000000
  if 1000000000 ≤ nsec then ⟨t.sec + (dsec + 1), nsec - 1000000000⟩
  else if nsec < 0 then ⟨t.sec + (dsec - 1), nsec + 1000000000⟩
  else ⟨t.sec + dsec, nsec⟩

/-- Go `Time.Unix()`: seconds elapsed since January 1, 1970 UTC. -/
def Time.Unix (t : Time) : Int := t.sec

end time

/-- The Go conversion `(uint64)(x)` of an `int64`: reduction modulo `2 ^ 64`. -/
def uint64 (x : Int) : Nat := (x % 18446744073709551616).toNat

/-- Subtraction of two `uint64` values (wraps around). -/
def uint64Sub (a b : Nat) : Nat := (a + 18446744073709551616 - b % 18446744073709551616) % 18446744073709551616

/-! ## Go standard library: `encoding/base64` (`StdEncoding`) -/

namespace base64

/-- The standard alphabet `A-Z a-z 0-9 + /`, indexed by a 6-bit value. -/
def encodeStd (i : Nat) : Char :=
  let v := i % 64
  if v < 26 then Char.ofNat (65 + v)
  else if v < 52 then Char.ofNat (97 + (v - 26))
  else if v < 62 then Char.ofNat (48 + (v - 52))
  else if v = 62 then '+'
  else '/'

/-- The characters of `StdEncoding.EncodeToString`: three bytes give four
characters, a final group of one or two bytes is padded with `=`. -/
def encodeChars : List Nat → List Char
  | [] => []
  | [a] => [encodeStd (a / 4), encodeStd (a % 4 * 16), '=', '=']
  | [a, b] => [encodeStd (a / 4), encodeStd (a % 4 * 16 + b / 16), encodeStd (b % 16 * 4), '=']
  | a :: b :: c :: rest =>
    encodeStd (a / 4) :: encodeStd (a % 4 * 16 + b / 16) ::
      encodeStd (b % 16 * 4 + c / 64) :: encodeStd (c % 64) :: encodeChars rest

/-- Go `base64.StdEncoding.EncodeToString`. -/
def EncodeToString (src : List Nat) : String := ⟨encodeChars src⟩

end base64

/-! ## `crypto/x509`, `crypto/tls`, `net/http`: what `validClient` reads -/

namespace x509

/-- An `x509.Certificate`, observed only through `VerifyHostname`, which
returns `nil` (`none`) or an error. -/
structure Certificate where
  VerifyHostname : String → Option String

end x509

namespace tls

/-- The `tls.ConnectionState` field the code reads. -/
structure ConnectionState where
  VerifiedChains : List (List x509.Certificate)

end tls

namespace http

/-- The `http.Request` fields the code reads: the `TLS` pointer (`none` is
`nil`) and the outcome of `ioutil.ReadAll(r.Body)`. -/
structure Request where
  TLS : Option tls.ConnectionState
  Body : Except String String

end http

/-! ## `golang.org/x/crypto/ssh`: keys and certificates -/

namespace ssh

/-- An `ssh.PublicKey`: its algorithm name (`Type()`) and its key blob. -/
structure PublicKey where
  Type_ : String
  blob : List Nat
  deriving DecidableEq, Repr

/-- An `ssh.Signer`, the parsed CA key. -/
structure Signer where
  PublicKey : PublicKey
  deriving DecidableEq, Repr

/-- An `ssh.Certificate`: the fields set by `signHost` and by `SignCert`. -/
structure Certificate where
  Nonce : List Nat
  Key : PublicKey
  Serial : Nat
  CertType : Nat
  KeyId : String
  ValidPrincipals : List String
  ValidAfter : Nat
  ValidBefore : Nat
  SignatureKey : Option PublicKey
  Signature : Option (List Nat)
  deriving DecidableEq, Repr

end ssh

/-! ## Configuration, environment and storage -/

/-- The configuration keys read by `signHost`. -/
structure Config where
  SigningKey : String
  CertDuration : String
  StripSuffix : String
  deriving DecidableEq, Repr

/-- Everything a request obtains from outside the two source files. -/
structure Env where
  /-- Outcome of `ioutil.ReadFile` on a path. -/
  ReadFile : String → Except String (List Nat)
  /-- Outcome of `ssh.ParsePrivateKey`. -/
  ParsePrivateKey : List Nat → Except String ssh.Signer
  /-- Outcome of `rand.Read(nonce)` on the 32-byte buffer. -/
  randRead : Except String (List Nat)
  /-- Value of `time.Now()`. -/
  Now : time.Time
  /-- Outcome of `time.ParseDuration`, in nanoseconds. -/
  ParseDuration : String → Except String Int
  /-- Outcome of `io.ReadFull(rand, c.Nonce)` inside `SignCert`. -/
  signNonce : Except String (List Nat)
  /-- Outcome of `authority.Sign` on the certificate to be signed. -/
  Sign : ssh.Signer → ssh.Certificate → Except String (List Nat)
  /-- Outcome of `ssh.ParseAuthorizedKey` on the request body. -/
  ParseAuthorizedKey : String → Except String ssh.PublicKey
  /-- Bytes of `Certificate.Marshal()`. -/
  Marshal : ssh.Certificate → List Nat
  /-- Storage fault, if any, of the `n`-th database call of the request. -/
  dbFault : Nat → Option String
  /-- Fault, if any, of `rows.Scan`. -/
  scanFault : Option String
  /-- Iteration fault of the rows of the `n`-th database call: `some k` when
  `rows.Next()` delivers `k` rows and then returns `false` because iteration
  failed (the cause is left in `rows.Err()`), `none` when it runs to the end. -/
  nextFault : Nat → Option Nat

namespace ssh

/-- The library method `Certificate.SignCert(rand, authority)`: it draws a
fresh nonce, records the authority's public key, signs, and stores the
signature. It returns the certificate as left behind and the error, if any. -/
def SignCert (w : Env) (c : Certificate) (authority : Signer) : Certificate × Option String :=
  match w.signNonce with
  | .error e => (c, some e)
  | .ok nonce =>
    let c1 := { c with Nonce := nonce, SignatureKey := some authority.PublicKey }
    match w.Sign authority c1 with
    | .error e => (c1, some e)
    | .ok sig => ({ c1 with Signature := some sig }, none)

end ssh

/-- Modelled from the spec: a row of the `hostkeys` table, whose schema is not
among the source files; columns `(id, hostname, pubkey)`. -/
structure HostRecord where
  id : Nat
  hostname : String
  pubkey : String
  deriving DecidableEq, Repr

/-- Modelled from the spec: the `hostkeys` table, whose schema and storage
engine are not among the source files: the rows in scan order and the
auto-increment counter that supplies the `id` of the next inserted row. -/
structure DB where
  rows : List HostRecord
  nextId : Nat
  deriving DecidableEq, Repr

namespace DB

/-- The table before any enrollment; the first assigned id is 1. -/
def empty : DB := ⟨[], 1⟩

/-- Rows returned by `SELECT id FROM hostkeys WHERE hostname=?`. -/
def selectId (db : DB) (hostname : String) : List Nat :=
  (db.rows.filter (fun r => decide (r.hostname = hostname))).map (fun r => r.id)

/-- Modelled from the spec: `INSERT INTO hostkeys(hostname, pubkey) VALUES(?,?)`;
the id is auto-assigned, and the `hostname` column is unique, so inserting a
hostname that is present is a constraint violation. -/
def insert (db : DB) (hostname pubkey : String) : Except String DB :=
  if db.rows.any (fun r => decide (r.hostname = hostname)) then
    .error "UNIQUE constraint failed: hostkeys.hostname"
  else
    .ok ⟨db.rows ++ [⟨db.nextId, hostname, pubkey⟩], db.nextId + 1⟩

/-- Effect of `UPDATE hostkeys SET pubkey=? WHERE hostname=?`. -/
def update (db : DB) (pubkey hostname : String) : DB :=
  ⟨db.rows.map (fun r => if r.hostname = hostname then { r with pubkey := pubkey } else r),
    db.nextId⟩

end DB

/-- The receiver `c *context`: configuration and database handle. -/
structure context where
  conf : Config
  db : DB
  deriving DecidableEq, Repr

/-! ## `server/enroll.go` -/

/-- Source `validClient` (enroll.go 101-108). `none` is a run-time panic: `r.TLS`
is dereferenced without a nil check, and `VerifiedChains[0][0]` is indexed. -/
def validClient (hostname : String) (r : http.Request) : Option Bool :=
  match r.TLS with
  | none => none
  | some conn =>
    if conn.VerifiedChains.length = 0 then some false
    else
      match conn.VerifiedChains with
      | (cert :: _) :: _ => some (cert.VerifyHostname hostname).isNone
      | _ => none

/-- Source `signHost` (enroll.go 110-147). The error returned by
`template.SignCert` is discarded, as in the source (line 145). -/
def signHost (w : Env) (c : context) (hostname : String) (serial : Nat)
    (pubkey : ssh.PublicKey) : Except String ssh.Certificate :=
  match w.ReadFile c.conf.SigningKey with
  | .error err => .error err
  | .ok privateKey =>
    match w.ParsePrivateKey privateKey with
    | .error err => .error err
    | .ok signer =>
      match w.randRead with
      | .error err => .error err
      | .ok nonce =>
        let startTime := w.Now
        match w.ParseDuration c.conf.CertDuration with
        | .error err => .error err
        | .ok week =>
          let endTime := startTime.Add week
          let principals :=
            if c.conf.StripSuffix ≠ "" ∧ strings.HasSuffix hostname c.conf.StripSuffix = true then
              [hostname] ++ [strings.TrimSuffix hostname c.conf.StripSuffix]
            else [hostname]
          let template : ssh.Certificate :=
            { Nonce := nonce
              Key := pubkey
              Serial := serial
              CertType := 2
              KeyId := hostname
              ValidPrincipals := principals
              ValidAfter := uint64 startTime.Unix
              ValidBefore := uint64 endTime.Unix
              SignatureKey := none
              Signature := none }
          .ok (ssh.SignCert w template signer).1

/-- The rows that `rows.Next()` delivers for the result `rows` of database
call `n`: all of them, or the first `k` when iteration fails after `k` rows.
Neither source file consults `rows.Err()`, so a failed iteration is
indistinguishable, for the code, from the end of the rows. -/
def delivered {α : Type} (w : Env) (n : Nat) (rows : List α) : List α :=
  match w.nextFault n with
  | none => rows
  | some k => rows.take k

/-- Lines 59-78 of `EnrollHost`: look the hostname up (database call 1; the
host is new unless `rows.Next()` delivers a row), then insert or update
(database call 2). -/
def upsertHost (w : Env) (db : DB) (hostname encodedPubkey : String) : Except String DB :=
  match w.dbFault 1 with
  | some err => .error err
  | none =>
    let newHost := (delivered w 1 (db.selectId hostname)).isEmpty
    match w.dbFault 2 with
    | some err => .error err
    | none =>
      if newHost then db.insert hostname encodedPubkey
      else .ok (db.update encodedPubkey hostname)

/-- Source `rows.Scan(&id)` into a `uint64`: fails on a storage fault or
when the value is out of range. -/
def Scan (w : Env) (v : Nat) : Except String Nat :=
  match w.scanFault with
  | some err => .error err
  | none => if v < 18446744073709551616 then .ok v else .error "value out of range"

/-- The loop `for rows.Next()` around `rows.Scan(&id)` (lines 86-91): every
row overwrites `id`. -/
def scanLoop (w : Env) : List Nat → Nat → Except String Nat
  | [], id => .ok id
  | v :: rest, _ =>
    match Scan w v with
    | .error err => .error err
    | .ok id => scanLoop w rest id

/-- Lines 80-91 of `EnrollHost`: read the id back (database call 3); `id`
starts as the zero value and the loop runs over the rows that `rows.Next()`
delivers. -/
def readId (w : Env) (db : DB) (hostname : String) : Except String Nat :=
  match w.dbFault 3 with
  | some err => .error err
  | none => scanLoop w (delivered w 3 (db.selectId hostname)) 0

/-- Lines 96-98 of `EnrollHost`: the response line for a certificate. -/
def certLine (w : Env) (signedCert : ssh.Certificate) : String :=
  let certString := base64.EncodeToString (w.Marshal signedCert)
  let header := signedCert.Key.Type_ ++ "-cert-v01@openssh.com "
  header ++ certString

/-- Source `EnrollHost` (enroll.go 45-99): the returned `(string, error)` and
the database as the call leaves it. -/
def EnrollHost (w : Env) (c : context) (hostname : String) (r : http.Request) :
    Option (Except String String × DB) :=
  match validClient hostname r with
  | none => none
  | some false => some (.error "invalid client auth", c.db)
  | some true =>
    match r.Body with
    | .error err => some (.error err, c.db)
    | .ok data =>
      let encodedPubkey := data
      match w.ParseAuthorizedKey data with
      | .error err => some (.error err, c.db)
      | .ok pubkey =>
        match upsertHost w c.db hostname encodedPubkey with
        | .error err => some (.error err, c.db)
        | .ok db1 =>
          match readId w db1 hostname with
          | .error err => some (.error err, db1)
          | .ok id =>
            match signHost w ⟨c.conf, db1⟩ hostname id pubkey with
            | .error err => some (.error err, db1)
            | .ok signedCert => some (.ok (certLine w signedCert), db1)

/-! ## `server/known_hosts.go` -/

/-- The loop of `GetKnownHosts` (known_hosts.go 41-49) over the scanned rows. -/
def knownHostsLoop (w : Env) : List HostRecord → String → Except String String
  | [], buffer => .ok buffer
  | r :: rest, buffer =>
    match w.scanFault with
    | some err => .error err
    | none => knownHostsLoop w rest (buffer ++ (r.hostname ++ " " ++ r.pubkey ++ "\n"))

/-- Source `GetKnownHosts` (known_hosts.go 35-51); the loop runs over the
rows that `rows.Next()` delivers. -/
def GetKnownHosts (w : Env) (c : context) : Except String String :=
  match w.dbFault 1 with
  | some err => .error err
  | none => knownHostsLoop w (delivered w 1 c.db.rows) ""

/-! ## A concrete environment, used to instantiate the results -/

/-- An ed25519 host key in authorized-keys form (key bytes 1, 2, ..., 32). -/
def demoKeyLine : String :=
  "ssh-ed25519 AAAAC3NzaC1lZDI1NTE5AAAAIAECAwQFBgcICQoLDA0ODxAREhMUFRYXGBkaGxwdHh8g"

/-- The key that `demoKeyLine` encodes. -/
def demoKey : ssh.PublicKey :=
  ⟨"ssh-ed25519", [0, 0, 0, 11, 115, 115, 104, 45, 101, 100, 50, 53, 53, 49, 57, 0, 0, 0, 32,
    1, 2, 3, 4, 5, 6, 7, 8, 9, 10, 11, 12, 13, 14, 15, 16, 17, 18, 19, 20, 21, 22, 23, 24, 25,
    26, 27, 28, 29, 30, 31, 32]⟩

/-- An environment in which nothing fails: the clock reads 1478217600.25 s, the
only duration understood is `24h`, and the only bodies `ssh.ParseAuthorizedKey`
is asked about are `demoKeyLine` with and without its final newline (the
library reads its input line by line and trims the white space around each
line, so it accepts both). -/
def demoEnv : Env where
  ReadFile := fun _ => .ok [45, 45, 45, 45, 45]
  ParsePrivateKey := fun _ => .ok ⟨⟨"ssh-ed25519", [0, 0, 0, 11]⟩⟩
  randRead := .ok (List.replicate 32 0)
  Now := ⟨1478217600, 250000000⟩
  ParseDuration := fun s => if s = "24h" then .ok 86400000000000 else .error "time: invalid duration"
  signNonce := .ok (List.replicate 32 1)
  Sign := fun _ _ => .ok [83, 73, 71]
  ParseAuthorizedKey := fun s =>
    if s = demoKeyLine ∨ s = demoKeyLine ++ "\n" then .ok demoKey else .error "ssh: no key found"
  Marshal := fun cert => cert.Key.blob ++ [cert.Serial % 256]
  dbFault := fun _ => none
  scanFault := none
  nextFault := fun _ => none

/-- As `demoEnv`, except that the signature operation fails. -/
def failingSignEnv : Env :=
  { demoEnv with Sign := fun _ _ => .error "ssh: signing failed" }

/-- As `demoEnv`, except that the iteration over the rows of the read-back
query (database call 3) fails before it delivers a row. -/
def failingNextEnv : Env :=
  { demoEnv with nextFault := fun n => if n = 3 then some 0 else none }

/-- As `demoEnv`, except that the iteration over the rows of the first query
of a request (database call 1) fails after one row. -/
def failingDumpEnv : Env :=
  { demoEnv with nextFault := fun n => if n = 1 then some 1 else none }

/-- A configuration with a 24 hour lifetime and the suffix `.example.com`. -/
def demoConf : Config := ⟨"/etc/sharkey/ca_key", "24h", ".example.com"⟩

/-- A client certificate attesting exactly one host name. -/
def certFor (name : String) : x509.Certificate :=
  ⟨fun h => if h = name then none else some "x509: certificate is valid for another name"⟩

/-- A request over mutual TLS from a client attesting `name`, with body `body`. -/
def requestFrom (name body : String) : http.Request :=
  ⟨some ⟨[[certFor name]]⟩, .ok body⟩

/-- The certificate `signHost` builds for `web01.example.com`, serial 1, in `demoEnv`. -/
def demoCert : ssh.Certificate :=
  { Nonce := List.replicate 32 1
    Key := demoKey
    Serial := 1
    CertType := 2
    KeyId := "web01.example.com"
    ValidPrincipals := ["web01.example.com", "web01"]
    ValidAfter := 1478217600
    ValidBefore := 1478304000
    SignatureKey := some ⟨"ssh-ed25519", [0, 0, 0, 11]⟩
    Signature := some [83, 73, 71] }

/-- The first space-separated token of a string: the characters before its
first space. -/
def firstToken (s : String) : String := ⟨s.data.takeWhile (fun ch => decide (ch ≠ ' '))⟩

/-- What `signHost` returns for serial 0: `demoCert` but for the serial. -/
def serialZeroCert : ssh.Certificate :=
  { demoCert with Serial := 0 }

/-- What `signHost` returns in `failingSignEnv`: the template with the nonce
and authority key that `SignCert` stored before the signature failed. -/
def unsignedCert : ssh.Certificate :=
  { demoCert with Signature := none }

/-- The response line for `unsignedCert`. -/
def unsignedLine : String := certLine failingSignEnv unsignedCert

/-! ## Registry predicates and call sequences -/

/-- Host names are unique: at most one row per host name. -/
def DB.HostnamesUnique (db : DB) : Prop := (db.rows.map (fun r => r.hostname)).Nodup

/-- Modelled from the spec: the schema constraints of the `hostkeys` table,
whose definition is not among the source files: `hostname` is unique, `id` is
unique, and every `id` in use lies below the auto-increment counter. -/
def DB.Valid (db : DB) : Prop :=
  db.HostnamesUnique ∧ (db.rows.map (fun r => r.id)).Nodup ∧ ∀ r ∈ db.rows, r.id < db.nextId

/-- One enrollment request: its environment, the host name of the URL, the request. -/
structure Call where
  w : Env
  hostname : String
  r : http.Request

/-- Runs a sequence of `EnrollHost` calls, each on the database the previous
one left; `some db` when every call returned a certificate line, `none` as
soon as one did not. -/
def enrollAll (conf : Config) : DB → List Call → Option DB
  | db, [] => some db
  | db, k :: ks =>
    match EnrollHost k.w ⟨conf, db⟩ k.hostname k.r with
    | some (.ok _, db1) => enrollAll conf db1 ks
    | _ => none

/-- One line per record, `<hostname> <pubkey>` followed by a newline, in row order. -/
def knownHostsText : List HostRecord → String
  | [] => ""
  | r :: rest => r.hostname ++ " " ++ r.pubkey ++ "\n" ++ knownHostsText rest

/-- The table after scenario S1: `web01.example.com` enrolled with `demoKeyLine`. -/
def dbS1 : DB := ⟨[⟨1, "web01.example.com", demoKeyLine⟩], 2⟩

/-- The table after `web01.example.com` enrolled with `demoKeyLine` followed by
a newline, as the key file holds it. -/
def dbNewline : DB := ⟨[⟨1, "web01.example.com", demoKeyLine ++ "\n"⟩], 2⟩

/-- The table after S1, then `web01.internal` (scenario S4), then
`web01.example.com` once more. -/
def dbS4 : DB :=
  ⟨[⟨1, "web01.example.com", demoKeyLine ++ "\n"⟩, ⟨2, "web01.internal", demoKeyLine⟩], 3⟩

/-- The calls that lead from `dbS1` to `dbS4`. -/
def callsS4 : List Call :=
  [⟨demoEnv, "web01.internal", requestFrom "web01.internal" demoKeyLine⟩,
   ⟨demoEnv, "web01.example.com", requestFrom "web01.example.com" (demoKeyLine ++ "\n")⟩]

/-- The calls of scenarios S1 and S4, from the empty table. -/
def callsS6 : List Call :=
  [⟨demoEnv, "web01.example.com", requestFrom "web01.example.com" demoKeyLine⟩,
   ⟨demoEnv, "web01.internal", requestFrom "web01.internal" demoKeyLine⟩]

/-- The table after scenarios S1 and S4. -/
def dbS6 : DB :=
  ⟨[⟨1, "web01.example.com", demoKeyLine⟩, ⟨2, "web01.internal", demoKeyLine⟩], 3⟩

/-! ## Library facts -/

theorem HasSuffix_iff (s suf : String) :
    strings.HasSuffix s suf = true ↔ ∃ p : String, s = p ++ suf := by
  unfold strings.HasSuffix
  rw [Bool.and_eq_true, decide_eq_true_eq, decide_eq_true_eq]
  constructor
  · rintro ⟨_, h⟩
    refine ⟨⟨s.data.take (s.data.length - suf.data.length)⟩, ?_⟩
    apply String.ext
    rw [String.data_append]
    show s.data = s.data.take (s.data.length - suf.data.length) ++ suf.data
    have key := List.take_append_drop (s.data.length - suf.data.length) s.data
    rw [h] at key
    exact key.symm
  · rintro ⟨p, rfl⟩
    simp [String.data_append]

theorem TrimSuffix_append (p suf : String) : strings.TrimSuffix (p ++ suf) suf = p := by
  have h : strings.HasSuffix (p ++ suf) suf = true := (HasSuffix_iff _ _).2 ⟨p, rfl⟩
  unfold strings.TrimSuffix
  rw [if_pos h]
  apply String.ext
  simp [String.data_append]

theorem SignCert_frame (w : Env) (c : ssh.Certificate) (a : ssh.Signer) :
    (ssh.SignCert w c a).1.Key = c.Key ∧ (ssh.SignCert w c a).1.Serial = c.Serial ∧
    (ssh.SignCert w c a).1.CertType = c.CertType ∧ (ssh.SignCert w c a).1.KeyId = c.KeyId ∧
    (ssh.SignCert w c a).1.ValidPrincipals = c.ValidPrincipals ∧
    (ssh.SignCert w c a).1.ValidAfter = c.ValidAfter ∧
    (ssh.SignCert w c a).1.ValidBefore = c.ValidBefore := by
  unfold ssh.SignCert
  split
  · simp
  · dsimp only
    split <;> simp

/-- What a successful `signHost` returns, field by field. -/
theorem signHost_ok_fields {w : Env} {c : context} {hostname : String} {serial : Nat}
    {pubkey : ssh.PublicKey} {cert : ssh.Certificate}
    (h : signHost w c hostname serial pubkey = .ok cert) :
    ∃ week, w.ParseDuration c.conf.CertDuration = .ok week ∧
      cert.Key = pubkey ∧ cert.Serial = serial ∧ cert.CertType = 2 ∧ cert.KeyId = hostname ∧
      cert.ValidPrincipals =
        (if c.conf.StripSuffix ≠ "" ∧ strings.HasSuffix hostname c.conf.StripSuffix = true then
          [hostname, strings.TrimSuffix hostname c.conf.StripSuffix] else [hostname]) ∧
      cert.ValidAfter = uint64 w.Now.Unix ∧
      cert.ValidBefore = uint64 (w.Now.Add week).Unix := by
  unfold signHost at h
  split at h
  · cases h
  · split at h
    · cases h
    · split at h
      · cases h
      · split at h
        · cases h
        · rename_i week hweek
          injection h with h
          subst h
          refine ⟨week, hweek, ?_⟩
          simp only [SignCert_frame]
          simp

theorem uint64Sub_uint64 (a b : Int) : uint64Sub (uint64 a) (uint64 b) = uint64 (a - b) := by
  unfold uint64Sub uint64
  omega

/-- `Time.Add` moves the whole seconds by `d / 1e9`, plus or minus a carry. -/
theorem Time_Add_Unix (t : time.Time) (d : Int) :
    ((t.Add d).Unix - t.Unix = Int.tdiv d 1000000000 ∨
      (t.Add d).Unix - t.Unix = Int.tdiv d 1000000000 + 1 ∨
      (t.Add d).Unix - t.Unix = Int.tdiv d 1000000000 - 1) ∧
    (0 ≤ t.nsec → t.nsec < 1000000000 → Int.tmod d 1000000000 = 0 →
      (t.Add d).Unix - t.Unix = Int.tdiv d 1000000000) := by
  unfold time.Time.Add time.Time.Unix
  dsimp only
  split
  · refine ⟨Or.inr (Or.inl (by simp)), ?_⟩
    intro h0 h1 hm
    omega
  · split
    · refine ⟨Or.inr (Or.inr (by simp)), ?_⟩
      intro h0 h1 hm
      omega
    · exact ⟨Or.inl (by simp), fun _ _ _ => by simp⟩

/-- With a TLS session present, `validClient` returns, and returns `true`
exactly when the first verified chain has a leaf that verifies the host name. -/
theorem validClient_of_session (hostname : String) (r : http.Request) (conn : tls.ConnectionState)
    (hT : r.TLS = some conn) :
    (conn.VerifiedChains = [] → validClient hostname r = some false) ∧
    (∀ leaf rest more, conn.VerifiedChains = (leaf :: rest) :: more →
      validClient hostname r = some (leaf.VerifyHostname hostname).isNone) := by
  unfold validClient
  rw [hT]
  constructor
  · intro h
    simp [h]
  · intro leaf rest more h
    simp [h]

theorem encodeStd_ne_space (i : Nat) : base64.encodeStd i ≠ ' ' := by
  have key : ∀ v : Fin 64, base64.encodeStd v.val ≠ ' ' := by decide
  have h := key ⟨i % 64, Nat.mod_lt _ (by decide)⟩
  unfold base64.encodeStd at h ⊢
  simpa using h

theorem encodeChars_no_space : ∀ src : List Nat, ' ' ∉ base64.encodeChars src
  | [] => by simp [base64.encodeChars]
  | [a] => by
    simp only [base64.encodeChars, List.mem_cons, List.mem_singleton, not_or]
    exact ⟨(encodeStd_ne_space _).symm, (encodeStd_ne_space _).symm, by decide, by decide⟩
  | [a, b] => by
    simp only [base64.encodeChars, List.mem_cons, List.mem_singleton, not_or]
    exact ⟨(encodeStd_ne_space _).symm, (encodeStd_ne_space _).symm,
      (encodeStd_ne_space _).symm, by decide⟩
  | a :: b :: c :: rest => by
    simp only [base64.encodeChars, List.mem_cons, not_or]
    exact ⟨(encodeStd_ne_space _).symm, (encodeStd_ne_space _).symm,
      (encodeStd_ne_space _).symm, (encodeStd_ne_space _).symm, encodeChars_no_space rest⟩

/-- The steps a successful `EnrollHost` went through. -/
theorem EnrollHost_ok_steps {w : Env} {c : context} {H : String} {r : http.Request}
    {s : String} {db1 : DB} (h : EnrollHost w c H r = some (.ok s, db1)) :
    ∃ data pubkey id cert, r.Body = .ok data ∧ w.ParseAuthorizedKey data = .ok pubkey ∧
      upsertHost w c.db H data = .ok db1 ∧ readId w db1 H = .ok id ∧
      signHost w ⟨c.conf, db1⟩ H id pubkey = .ok cert ∧ s = certLine w cert := by
  unfold EnrollHost at h
  split at h
  · cases h
  · cases h
  · split at h
    · cases h
    · rename_i data hdata
      dsimp only at h
      split at h
      · cases h
      · rename_i pubkey hpub
        split at h
        · cases h
        · rename_i db2 hup
          split at h
          · cases h
          · rename_i id hid
            split at h
            · cases h
            · rename_i cert hcert
              simp only [Option.some.injEq, Prod.mk.injEq, Except.ok.injEq] at h
              obtain ⟨hs, hdb⟩ := h
              subst hdb
              exact ⟨data, pubkey, id, cert, hdata, hpub, hup, hid, hcert, hs.symm⟩

/-- The four checked steps of `signHost`: a failure of reading the key file,
parsing the key, drawing the nonce or parsing the duration is returned. -/
theorem signHost_checked_steps (w : Env) (c : context) (H : String) (serial : Nat)
    (pubkey : ssh.PublicKey) (e : String) :
    (w.ReadFile c.conf.SigningKey = .error e → signHost w c H serial pubkey = .error e) ∧
    (∀ key, w.ReadFile c.conf.SigningKey = .ok key → w.ParsePrivateKey key = .error e →
      signHost w c H serial pubkey = .error e) ∧
    (∀ key signer, w.ReadFile c.conf.SigningKey = .ok key → w.ParsePrivateKey key = .ok signer →
      w.randRead = .error e → signHost w c H serial pubkey = .error e) ∧
    (∀ key signer nonce, w.ReadFile c.conf.SigningKey = .ok key →
      w.ParsePrivateKey key = .ok signer → w.randRead = .ok nonce →
      w.ParseDuration c.conf.CertDuration = .error e → signHost w c H serial pubkey = .error e) := by
  refine ⟨?_, ?_, ?_, ?_⟩
  · intro h1
    simp [signHost, h1]
  · intro key h1 h2
    simp [signHost, h1, h2]
  · intro key signer h1 h2 h3
    simp [signHost, h1, h2, h3]
  · intro key signer nonce h1 h2 h3 h4
    simp [signHost, h1, h2, h3, h4]

/-! ## Storage facts -/

theorem filter_eq_singleton_of_nodup_map {α β : Type} [DecidableEq β] (f : α → β) :
    ∀ (l : List α) (a : α), (l.map f).Nodup → a ∈ l →
      l.filter (fun x => decide (f x = f a)) = [a]
  | [], _, _, h => by cases h
  | x :: xs, a, hnd, hmem => by
    rw [List.map_cons, List.nodup_cons] at hnd
    rcases List.mem_cons.1 hmem with rfl | hin
    · have hrest : xs.filter (fun x => decide (f x = f a)) = [] := by
        rw [List.filter_eq_nil_iff]
        intro y hy hfy
        exact hnd.1 (by rw [← of_decide_eq_true hfy]; exact List.mem_map_of_mem f hy)
      rw [List.filter_cons_of_pos (by simp), hrest]
    · have hne : f x ≠ f a := fun hxa => hnd.1 (by rw [hxa]; exact List.mem_map_of_mem f hin)
      rw [List.filter_cons_of_neg (by simpa using hne)]
      exact filter_eq_singleton_of_nodup_map f xs a hnd.2 hin

theorem filter_hostname_of_mem {db : DB} (hu : db.HostnamesUnique) {a : HostRecord}
    (ha : a ∈ db.rows) :
    db.rows.filter (fun x => decide (x.hostname = a.hostname)) = [a] :=
  filter_eq_singleton_of_nodup_map (fun r : HostRecord => r.hostname) db.rows a hu ha

theorem update_map_hostname (db : DB) (K H : String) :
    (db.update K H).rows.map (fun r => r.hostname) = db.rows.map (fun r => r.hostname) := by
  unfold DB.update
  rw [List.map_map]
  apply List.map_congr_left
  intro r _
  dsimp only [Function.comp]
  split <;> rfl

theorem update_map_id (db : DB) (K H : String) :
    (db.update K H).rows.map (fun r => r.id) = db.rows.map (fun r => r.id) := by
  unfold DB.update
  rw [List.map_map]
  apply List.map_congr_left
  intro r _
  dsimp only [Function.comp]
  split <;> rfl

/-- The two ways `upsertHost` succeeds: a row is appended for an absent host
name, or the rows of a present host name get the new key. -/
theorem delivered_ne_nil {α : Type} {w : Env} {n : Nat} {rows : List α}
    (h : delivered w n rows ≠ []) : rows ≠ [] := by
  rintro rfl
  apply h
  unfold delivered
  split <;> simp

theorem upsertHost_ok {w : Env} {db db1 : DB} {H K : String}
    (h : upsertHost w db H K = .ok db1) :
    (db.selectId H = [] ∧ (∀ x ∈ db.rows, x.hostname ≠ H) ∧
      db1 = ⟨db.rows ++ [⟨db.nextId, H, K⟩], db.nextId + 1⟩) ∨
    (db.selectId H ≠ [] ∧ db1 = db.update K H) := by
  unfold upsertHost at h
  split at h
  · cases h
  · dsimp only at h
    split at h
    · cases h
    · split at h
      · rename_i hnew
        left
        unfold DB.insert at h
        split at h
        · cases h
        · rename_i hany
          injection h with h
          have habs : ∀ x ∈ db.rows, x.hostname ≠ H := by
            intro x hx hxe
            exact hany (List.any_eq_true.2 ⟨x, hx, by simpa using hxe⟩)
          refine ⟨?_, habs, h.symm⟩
          unfold DB.selectId
          rw [List.map_eq_nil_iff, List.filter_eq_nil_iff]
          intro x hx hxe
          exact habs x hx (of_decide_eq_true hxe)
      · rename_i hnew
        right
        injection h with h
        exact ⟨delivered_ne_nil (by simpa using hnew), h.symm⟩

theorem selectId_ne_nil {db : DB} {H : String} (h : db.selectId H ≠ []) :
    ∃ a ∈ db.rows, a.hostname = H := by
  unfold DB.selectId at h
  rcases List.exists_mem_of_ne_nil _ h with ⟨i, hi⟩
  rcases List.mem_map.1 hi with ⟨a, ha, _⟩
  rcases List.mem_filter.1 ha with ⟨ha1, ha2⟩
  exact ⟨a, ha1, of_decide_eq_true ha2⟩

theorem selectId_of_mem {db : DB} (hu : db.HostnamesUnique) {a : HostRecord} (ha : a ∈ db.rows) :
    db.selectId a.hostname = [a.id] := by
  unfold DB.selectId
  rw [filter_hostname_of_mem hu ha]
  rfl

theorem readId_ok {w : Env} {db : DB} {H : String} {id i : Nat}
    (hnext : w.nextFault 3 = none) (hsel : db.selectId H = [i])
    (h : readId w db H = .ok id) : id = i := by
  unfold readId at h
  split at h
  · cases h
  · unfold delivered at h
    rw [hnext] at h
    dsimp only at h
    rw [hsel] at h
    unfold scanLoop Scan at h
    split at h
    · cases h
    · rename_i v hv
      unfold scanLoop at h
      injection h with h
      subst h
      split at hv
      · cases hv
      · split at hv
        · injection hv with hv
          exact hv.symm
        · cases hv

/-- After a successful `upsertHost` on a table with unique host names there
is exactly one row for `H`, it holds `K`, and the other rows are as before. -/
theorem upsertHost_rows {w : Env} {db db1 : DB} {H K : String} (hu : db.HostnamesUnique)
    (h : upsertHost w db H K = .ok db1) :
    (∃ a, db1.rows.filter (fun x => decide (x.hostname = H)) = [a] ∧ a.pubkey = K ∧
      a.hostname = H ∧ (db.selectId H = [] → a.id = db.nextId)) ∧
    db1.rows.filter (fun x => decide (x.hostname ≠ H)) =
      db.rows.filter (fun x => decide (x.hostname ≠ H)) := by
  rcases upsertHost_ok h with ⟨_, habs, rfl⟩ | ⟨hpres, rfl⟩
  · have h1 : db.rows.filter (fun x => decide (x.hostname = H)) = [] := by
      rw [List.filter_eq_nil_iff]
      intro x hx hxe
      exact habs x hx (of_decide_eq_true hxe)
    constructor
    · refine ⟨⟨db.nextId, H, K⟩, ?_, rfl, rfl, fun _ => rfl⟩
      simp [List.filter_append, h1]
    · simp [List.filter_append]
  · obtain ⟨a, ha, haH⟩ := selectId_ne_nil hpres
    subst haH
    have h1 := filter_hostname_of_mem hu ha
    constructor
    · refine ⟨{ a with pubkey := K }, ?_, rfl, rfl, fun hnil => absurd hnil hpres⟩
      unfold DB.update
      dsimp only
      rw [List.filter_map]
      have hcomp : ((fun x : HostRecord => decide (x.hostname = a.hostname)) ∘
          fun r : HostRecord => if r.hostname = a.hostname then { r with pubkey := K } else r) =
          fun x : HostRecord => decide (x.hostname = a.hostname) := by
        funext r
        dsimp only [Function.comp]
        split <;> rfl
      rw [hcomp, h1]
      simp
    · unfold DB.update
      dsimp only
      rw [List.filter_map]
      have hcomp : ((fun x : HostRecord => decide (x.hostname ≠ a.hostname)) ∘
          fun r : HostRecord => if r.hostname = a.hostname then { r with pubkey := K } else r) =
          fun x : HostRecord => decide (x.hostname ≠ a.hostname) := by
        funext r
        dsimp only [Function.comp]
        split <;> rfl
      rw [hcomp]
      conv_rhs => rw [← List.map_id (List.filter _ db.rows)]
      apply List.map_congr_left
      intro r hr
      have hne : r.hostname ≠ a.hostname := by simpa using (List.mem_filter.1 hr).2
      rw [if_neg hne]
      rfl

/-- A successful `upsertHost` keeps the schema constraints and keeps, for
every row, a row with the same id and host name. -/
theorem upsertHost_valid {w : Env} {db db1 : DB} {H K : String} (hv : db.Valid)
    (h : upsertHost w db H K = .ok db1) :
    db1.Valid ∧ ∀ a ∈ db.rows, ∃ b ∈ db1.rows, b.id = a.id ∧ b.hostname = a.hostname := by
  obtain ⟨hu, hid, hlt⟩ := hv
  rcases upsertHost_ok h with ⟨_, habs, rfl⟩ | ⟨_, rfl⟩
  · refine ⟨⟨?_, ?_, ?_⟩, ?_⟩
    · unfold DB.HostnamesUnique at hu ⊢
      dsimp only
      rw [List.map_append, List.nodup_append]
      refine ⟨hu, by simp, ?_⟩
      intro x hx1 hx2
      rcases List.mem_map.1 hx1 with ⟨a, ha, rfl⟩
      simp only [List.map_cons, List.map_nil, List.mem_singleton] at hx2
      exact habs a ha hx2
    · dsimp only
      rw [List.map_append, List.nodup_append]
      refine ⟨hid, by simp, ?_⟩
      intro x hx1 hx2
      rcases List.mem_map.1 hx1 with ⟨a, ha, rfl⟩
      simp only [List.map_cons, List.map_nil, List.mem_singleton] at hx2
      have := hlt a ha
      omega
    · intro a ha
      dsimp only at ha ⊢
      rcases List.mem_append.1 ha with ha | ha
      · have := hlt a ha
        omega
      · simp only [List.mem_singleton] at ha
        subst ha
        simp
    · intro a ha
      exact ⟨a, List.mem_append_left _ ha, rfl, rfl⟩
  · refine ⟨⟨?_, ?_, ?_⟩, ?_⟩
    · unfold DB.HostnamesUnique
      rw [update_map_hostname]
      exact hu
    · rw [update_map_id]
      exact hid
    · intro a ha
      unfold DB.update at ha ⊢
      dsimp only at ha ⊢
      rcases List.mem_map.1 ha with ⟨b, hb, rfl⟩
      have := hlt b hb
      split <;> exact this
    · intro a ha
      refine ⟨if a.hostname = H then { a with pubkey := K } else a, ?_, ?_, ?_⟩
      · unfold DB.update
        exact List.mem_map.2 ⟨a, ha, rfl⟩
      · split <;> rfl
      · split <;> rfl

theorem enrollAll_valid (conf : Config) :
    ∀ (calls : List Call) (db db2 : DB), db.Valid → enrollAll conf db calls = some db2 →
      db2.Valid ∧ ∀ a ∈ db.rows, ∃ b ∈ db2.rows, b.id = a.id ∧ b.hostname = a.hostname
  | [], db, db2, hv, h => by
    unfold enrollAll at h
    injection h with h
    subst h
    exact ⟨hv, fun a ha => ⟨a, ha, rfl, rfl⟩⟩
  | k :: ks, db, db2, hv, h => by
    unfold enrollAll at h
    split at h
    · rename_i s db1 hstep
      obtain ⟨data, _, _, _, _, _, hup, _, _, _⟩ := EnrollHost_ok_steps hstep
      obtain ⟨hv1, hkeep1⟩ := upsertHost_valid hv hup
      obtain ⟨hv2, hkeep2⟩ := enrollAll_valid conf ks db1 db2 hv1 h
      refine ⟨hv2, ?_⟩
      intro a ha
      obtain ⟨b, hb, hbi, hbh⟩ := hkeep1 a ha
      obtain ⟨b2, hb2, hb2i, hb2h⟩ := hkeep2 b hb
      exact ⟨b2, hb2, hb2i.trans hbi, hb2h.trans hbh⟩
    · cases h

theorem knownHostsLoop_ok {w : Env} :
    ∀ (rows : List HostRecord) (buffer out : String), knownHostsLoop w rows buffer = .ok out →
      out = buffer ++ knownHostsText rows
  | [], buffer, out, h => by
    unfold knownHostsLoop at h
    injection h with h
    subst h
    apply String.ext
    simp [knownHostsText, String.data_append]
  | r :: rest, buffer, out, h => by
    unfold knownHostsLoop at h
    split at h
    · cases h
    · rw [knownHostsLoop_ok rest _ out h]
      apply String.ext
      simp [knownHostsText, String.data_append]

theorem knownHostsText_count :
    ∀ rows : List HostRecord,
      (∀ r ∈ rows, '\n' ∉ r.hostname.data ∧ '\n' ∉ r.pubkey.data) →
      (knownHostsText rows).data.count '\n' = rows.length
  | [], _ => by simp [knownHostsText]
  | r :: rest, h => by
    have hr := h r (List.mem_cons_self _ _)
    have ih := knownHostsText_count rest (fun x hx => h x (List.mem_cons_of_mem _ hx))
    simp only [knownHostsText, String.data_append, List.count_append, ih, List.length_cons,
      List.count_eq_zero_of_not_mem hr.1, List.count_eq_zero_of_not_mem hr.2]
    have h1 : List.count '\n' " ".data = 0 := by decide
    have h2 : List.count '\n' "\n".data = 1 := by decide
    rw [h1, h2]
    omega

/-- When the iteration over the read-back rows does not fail, a successful
`EnrollHost` on a table with unique host names signs a certificate whose
`Serial` is the id of the one row of the host. -/
theorem EnrollHost_serial_of_complete_readback (w : Env) (c : context) (H : String)
    (r : http.Request) (s : String) (db1 : DB) (hu : c.db.HostnamesUnique)
    (hnext : w.nextFault 3 = none) (h : EnrollHost w c H r = some (.ok s, db1)) :
    ∃ pubkey id cert a, signHost w ⟨c.conf, db1⟩ H id pubkey = .ok cert ∧
      s = certLine w cert ∧
      db1.rows.filter (fun x => decide (x.hostname = H)) = [a] ∧ cert.Serial = a.id := by
  obtain ⟨data, pubkey, id, cert, _, _, hup, hid, hsign, hs⟩ := EnrollHost_ok_steps h
  obtain ⟨⟨a, ha, _, _, _⟩, _⟩ := upsertHost_rows hu hup
  have hsel : db1.selectId H = [a.id] := by
    unfold DB.selectId
    rw [ha]
    rfl
  obtain ⟨_, _, _, hser, _⟩ := signHost_ok_fields hsign
  exact ⟨pubkey, id, cert, a, hsign, hs, ha, by rw [hser, readId_ok hnext hsel hid]⟩

/-- Every row of the table after a successful `EnrollHost` is a row of the
table before it, or is the row of the enrolled host and holds the request body. -/
theorem EnrollHost_row_origin {w : Env} {c : context} {H : String} {r : http.Request}
    {s : String} {db1 : DB} (h : EnrollHost w c H r = some (.ok s, db1)) :
    ∀ a ∈ db1.rows, a ∈ c.db.rows ∨ (a.hostname = H ∧ r.Body = .ok a.pubkey) := by
  obtain ⟨data, _, _, _, hb, _, hup, _, _, _⟩ := EnrollHost_ok_steps h
  intro a ha
  rcases upsertHost_ok hup with ⟨_, _, rfl⟩ | ⟨_, rfl⟩
  · rcases List.mem_append.1 ha with ha | ha
    · exact Or.inl ha
    · rw [List.mem_singleton] at ha
      subst ha
      exact Or.inr ⟨rfl, hb⟩
  · unfold DB.update at ha
    rcases List.mem_map.1 ha with ⟨b, hb1, rfl⟩
    split
    · rename_i hbH
      exact Or.inr ⟨hbH, hb⟩
    · exact Or.inl hb1

theorem enrollAll_row_origin (conf : Config) :
    ∀ (calls : List Call) (db db2 : DB), enrollAll conf db calls = some db2 →
      ∀ a ∈ db2.rows, a ∈ db.rows ∨
        ∃ k ∈ calls, k.hostname = a.hostname ∧ k.r.Body = .ok a.pubkey
  | [], db, db2, h => by
    unfold enrollAll at h
    injection h with h
    subst h
    exact fun a ha => Or.inl ha
  | k :: ks, db, db2, h => by
    unfold enrollAll at h
    split at h
    · rename_i s db1 hstep
      intro a ha
      rcases enrollAll_row_origin conf ks db1 db2 h a ha with h1 | ⟨k2, hk2, hh, hbody⟩
      · rcases EnrollHost_row_origin hstep a h1 with h0 | ⟨hh, hbody⟩
        · exact Or.inl h0
        · exact Or.inr ⟨k, List.mem_cons_self _ _, hh.symm, hbody⟩
      · exact Or.inr ⟨k2, List.mem_cons_of_mem _ hk2, hh, hbody⟩
    · cases h

/-- When the row iteration of `GetKnownHosts` fails after the first of two
rows, the one line written so far is returned with a nil error. -/
theorem GetKnownHosts_truncated_on_failed_iteration :
    GetKnownHosts failingDumpEnv ⟨demoConf, dbS6⟩ =
      .ok ("web01.example.com " ++ demoKeyLine ++ "\n") := by
  rfl

/-! ## Results -/

/-- C1: when `signHost` succeeds, the certificate's `ValidPrincipals` is `[H]`
if the configured suffix `S` is empty or `H` does not end with `S`, and is
`[H, p]`, in that order, when `S` is non-empty and `H` is `p` followed by `S`. -/
theorem signHost_principals (w : Env) (c : context) (H : String) (serial : Nat)
    (pubkey : ssh.PublicKey) (cert : ssh.Certificate)
    (h : signHost w c H serial pubkey = .ok cert) :
    ((c.conf.StripSuffix = "" ∨ ¬ ∃ p : String, H = p ++ c.conf.StripSuffix) →
        cert.ValidPrincipals = [H]) ∧
    (∀ p : String, c.conf.StripSuffix ≠ "" → H = p ++ c.conf.StripSuffix →
        cert.ValidPrincipals = [H, p]) := by
  obtain ⟨_, _, _, _, _, _, hp, _, _⟩ := signHost_ok_fields h
  rw [hp]
  constructor
  · intro hS
    rw [if_neg]
    rintro ⟨hne, hsuf⟩
    rcases hS with hS | hS
    · exact hne hS
    · exact hS ((HasSuffix_iff _ _).1 hsuf)
  · intro p hne hH
    rw [if_pos ⟨hne, (HasSuffix_iff _ _).2 ⟨p, hH⟩⟩, hH, TrimSuffix_append]

/-- C1 at scenario S3: suffix `.example.com`, host `web01.example.com`. -/
theorem signHost_principals_witness :
    signHost demoEnv ⟨demoConf, DB.empty⟩ "web01.example.com" 1 demoKey = .ok demoCert ∧
    demoCert.ValidPrincipals = ["web01.example.com", "web01"] :=
  ⟨by rfl, (signHost_principals demoEnv ⟨demoConf, DB.empty⟩ "web01.example.com" 1 demoKey
    demoCert (by rfl)).2 "web01" (by decide) (by decide)⟩

/-- C2 (failing input): a request without a TLS session (`r.TLS` is nil) makes
`validClient` panic on the nil dereference instead of returning `false`, and
`EnrollHost` panics with it. -/
theorem validClient_nil_TLS_panics :
    validClient "web01.example.com" ⟨none, .ok demoKeyLine⟩ = none ∧
    validClient "web01.example.com" ⟨none, .ok demoKeyLine⟩ ≠ some false ∧
    EnrollHost demoEnv ⟨demoConf, DB.empty⟩ "web01.example.com" ⟨none, .ok demoKeyLine⟩ = none :=
  ⟨rfl, by simp [validClient], rfl⟩

/-- C3: when the TLS session has no verified chain, or the leaf of its first
verified chain does not verify `H`, `EnrollHost` returns the error
`invalid client auth`, no certificate, and the database it was given, whatever
the request body and the environment are. -/
theorem EnrollHost_invalid_client_auth (w : Env) (c : context) (H : String) (r : http.Request)
    (conn : tls.ConnectionState) (hT : r.TLS = some conn)
    (hC : conn.VerifiedChains = [] ∨
      ∃ leaf rest more, conn.VerifiedChains = (leaf :: rest) :: more ∧
        leaf.VerifyHostname H ≠ none) :
    EnrollHost w c H r = some (.error "invalid client auth", c.db) := by
  have hv : validClient H r = some false := by
    rcases hC with h | ⟨leaf, rest, more, h, hne⟩
    · exact (validClient_of_session H r conn hT).1 h
    · rw [(validClient_of_session H r conn hT).2 leaf rest more h]
      cases hl : leaf.VerifyHostname H with
      | none => exact absurd hl hne
      | some e => rfl
  unfold EnrollHost
  rw [hv]

/-- C3 at scenario S5: the client attests `web01.example.com` and asks for
`db01.example.com`. -/
theorem EnrollHost_invalid_client_auth_witness :
    EnrollHost demoEnv ⟨demoConf, DB.empty⟩ "db01.example.com"
      (requestFrom "web01.example.com" demoKeyLine) =
      some (.error "invalid client auth", DB.empty) :=
  EnrollHost_invalid_client_auth demoEnv ⟨demoConf, DB.empty⟩ "db01.example.com"
    (requestFrom "web01.example.com" demoKeyLine) ⟨[[certFor "web01.example.com"]]⟩ rfl
    (Or.inr ⟨certFor "web01.example.com", [], [], rfl, by decide⟩)

/-- C7: when `CertDuration` parses to `d` nanoseconds and `signHost` succeeds,
`ValidAfter` is the issue time in whole seconds since the epoch as a `uint64`,
and the `uint64` difference `ValidBefore - ValidAfter` is `d / 1s` or one
second more or less; it is exactly `d / 1s` when `d` is a whole number of
seconds (and the clock's nanosecond field is in range). -/
theorem signHost_validity_window (w : Env) (c : context) (H : String) (serial : Nat)
    (pubkey : ssh.PublicKey) (cert : ssh.Certificate) (d : Int)
    (hd : w.ParseDuration c.conf.CertDuration = .ok d)
    (h : signHost w c H serial pubkey = .ok cert) :
    cert.ValidAfter = uint64 w.Now.Unix ∧
    (uint64Sub cert.ValidBefore cert.ValidAfter = uint64 (Int.tdiv d 1000000000) ∨
      uint64Sub cert.ValidBefore cert.ValidAfter = uint64 (Int.tdiv d 1000000000 + 1) ∨
      uint64Sub cert.ValidBefore cert.ValidAfter = uint64 (Int.tdiv d 1000000000 - 1)) ∧
    (0 ≤ w.Now.nsec → w.Now.nsec < 1000000000 → Int.tmod d 1000000000 = 0 →
      uint64Sub cert.ValidBefore cert.ValidAfter = uint64 (Int.tdiv d 1000000000)) := by
  obtain ⟨week, hweek, _, _, _, _, _, hA, hB⟩ := signHost_ok_fields h
  rw [hd] at hweek
  injection hweek with hweek
  subst hweek
  rw [hA, hB, uint64Sub_uint64]
  obtain ⟨h3, hex⟩ := Time_Add_Unix w.Now d
  refine ⟨rfl, ?_, ?_⟩
  · rcases h3 with h3 | h3 | h3 <;> rw [h3] <;> simp
  · intro h0 h1 hm
    rw [hex h0 h1 hm]

/-- C7 at scenario S1: `24h` issued at 1478217600.25 s gives a window of
exactly 86400 s. -/
theorem signHost_validity_window_witness :
    demoCert.ValidAfter = 1478217600 ∧ uint64Sub demoCert.ValidBefore demoCert.ValidAfter = 86400 :=
  have h := signHost_validity_window demoEnv ⟨demoConf, DB.empty⟩ "web01.example.com" 1 demoKey
    demoCert 86400000000000 (by rfl) (by rfl)
  ⟨h.1, h.2.2 (by decide) (by decide) (by decide)⟩

/-- C8 (failing input): with a signature operation that fails, `SignCert`
reports the error, yet `signHost` returns the unsigned certificate with a nil
error, and `EnrollHost` returns a certificate line for it. -/
theorem signHost_ignores_sign_failure :
    (ssh.SignCert failingSignEnv { unsignedCert with Nonce := List.replicate 32 0, SignatureKey := none }
      ⟨⟨"ssh-ed25519", [0, 0, 0, 11]⟩⟩).2 = some "ssh: signing failed" ∧
    signHost failingSignEnv ⟨demoConf, DB.empty⟩ "web01.example.com" 1 demoKey = .ok unsignedCert ∧
    unsignedCert.Signature = none ∧
    EnrollHost failingSignEnv ⟨demoConf, DB.empty⟩ "web01.example.com"
      (requestFrom "web01.example.com" demoKeyLine) =
      some (.ok unsignedLine, ⟨[⟨1, "web01.example.com", demoKeyLine⟩], 2⟩) :=
  ⟨by rfl, by rfl, by rfl, by rfl⟩

/-- C10: a successful `EnrollHost` for a submitted key of algorithm name `T`
without a space returns `T`, then `-cert-v01@openssh.com` and a space, then the
standard base64 encoding of the marshalled certificate; the line has exactly
one space and its first space-separated token is `T-cert-v01@openssh.com`. -/
theorem EnrollHost_response_line (w : Env) (c : context) (H : String) (r : http.Request)
    (s : String) (db1 : DB) (data : String) (pubkey : ssh.PublicKey)
    (h : EnrollHost w c H r = some (.ok s, db1))
    (hbody : r.Body = .ok data) (hkey : w.ParseAuthorizedKey data = .ok pubkey)
    (hT : ' ' ∉ pubkey.Type_.data) :
    (∃ id cert, signHost w ⟨c.conf, db1⟩ H id pubkey = .ok cert ∧
      s = pubkey.Type_ ++ "-cert-v01@openssh.com " ++ base64.EncodeToString (w.Marshal cert)) ∧
    s.data.count ' ' = 1 ∧
    firstToken s = pubkey.Type_ ++ "-cert-v01@openssh.com" := by
  obtain ⟨data1, pubkey1, id, cert, hb, hk, _, _, hsign, hs⟩ := EnrollHost_ok_steps h
  rw [hbody] at hb
  injection hb with hb
  subst hb
  rw [hkey] at hk
  injection hk with hk
  subst hk
  obtain ⟨_, _, hK, _⟩ := signHost_ok_fields hsign
  have hline : s = pubkey.Type_ ++ "-cert-v01@openssh.com " ++
      base64.EncodeToString (w.Marshal cert) := by
    rw [hs, certLine, hK]
  have hdata : s.data = pubkey.Type_.data ++ ("-cert-v01@openssh.com".data ++
      (' ' :: base64.encodeChars (w.Marshal cert))) := by
    rw [hline]
    simp [String.data_append, base64.EncodeToString]
  have hno := encodeChars_no_space (w.Marshal cert)
  refine ⟨⟨id, cert, hsign, hline⟩, ?_, ?_⟩
  · rw [hdata, List.count_append, List.count_append, List.count_cons_self,
      List.count_eq_zero_of_not_mem hT, List.count_eq_zero_of_not_mem hno]
    decide
  · apply String.ext
    rw [firstToken, hdata, String.data_append]
    have hpre : ∀ ch ∈ pubkey.Type_.data ++ "-cert-v01@openssh.com".data,
        (fun ch => decide (ch ≠ ' ')) ch = true := by
      intro ch hch
      rcases List.mem_append.1 hch with hm | hm
      · simp only [decide_eq_true_eq]
        rintro rfl
        exact hT hm
      · have hconst : ∀ x ∈ "-cert-v01@openssh.com".data, decide (x ≠ ' ') = true := by decide
        exact hconst ch hm
    rw [← List.append_assoc, List.takeWhile_append_of_pos hpre]
    simp

/-- C10 at scenario S1: the line for an `ssh-ed25519` key. -/
theorem EnrollHost_response_line_witness :
    firstToken (certLine demoEnv demoCert) = "ssh-ed25519-cert-v01@openssh.com" ∧
    (certLine demoEnv demoCert).data.count ' ' = 1 :=
  have h := EnrollHost_response_line demoEnv ⟨demoConf, DB.empty⟩ "web01.example.com"
    (requestFrom "web01.example.com" demoKeyLine) (certLine demoEnv demoCert)
    ⟨[⟨1, "web01.example.com", demoKeyLine⟩], 2⟩ demoKeyLine demoKey (by rfl) rfl (by rfl)
    (by decide)
  ⟨h.2.2, h.2.1⟩

/-- C5: on a table with unique host names, after a successful `EnrollHost` for
`H` with body `K` the table has exactly one row whose host name is `H`, that
row's pubkey is `K`, and the rows of the other host names are unchanged. -/
theorem EnrollHost_latest_key (w : Env) (c : context) (H : String) (r : http.Request)
    (s K : String) (db1 : DB) (hu : c.db.HostnamesUnique) (hbody : r.Body = .ok K)
    (h : EnrollHost w c H r = some (.ok s, db1)) :
    (∃ a, db1.rows.filter (fun x => decide (x.hostname = H)) = [a] ∧ a.pubkey = K) ∧
    db1.rows.filter (fun x => decide (x.hostname ≠ H)) =
      c.db.rows.filter (fun x => decide (x.hostname ≠ H)) := by
  obtain ⟨data, _, _, _, hb, _, hup, _, _, _⟩ := EnrollHost_ok_steps h
  rw [hbody] at hb
  injection hb with hb
  subst hb
  obtain ⟨⟨a, ha, hk, _, _⟩, hrest⟩ := upsertHost_rows hu hup
  exact ⟨⟨a, ha, hk⟩, hrest⟩

/-- C5 at scenario S2: re-enrolling `web01.example.com` replaces its key. -/
theorem EnrollHost_latest_key_witness :
    (∃ a, dbNewline.rows.filter (fun x => decide (x.hostname = "web01.example.com")) = [a] ∧
      a.pubkey = demoKeyLine ++ "\n") ∧
    dbNewline.rows.filter (fun x => decide (x.hostname ≠ "web01.example.com")) =
      dbS1.rows.filter (fun x => decide (x.hostname ≠ "web01.example.com")) :=
  EnrollHost_latest_key demoEnv ⟨demoConf, dbS1⟩ "web01.example.com"
    (requestFrom "web01.example.com" (demoKeyLine ++ "\n")) (certLine demoEnv demoCert)
    (demoKeyLine ++ "\n") dbNewline (by unfold DB.HostnamesUnique; decide) rfl (by rfl)

/-- C6 (failing input): in `failingNextEnv` the iteration over the read-back
rows fails before the first row; `rows.Err()` is never consulted, so `id`
keeps its zero value and `EnrollHost` returns the line of a certificate with
serial 0, while the row of the host in the table it leaves has id 1. -/
theorem EnrollHost_serial_zero_on_failed_readback :
    EnrollHost failingNextEnv ⟨demoConf, DB.empty⟩ "web01.example.com"
      (requestFrom "web01.example.com" demoKeyLine) =
      some (.ok (certLine failingNextEnv serialZeroCert), dbS1) ∧
    signHost failingNextEnv ⟨demoConf, dbS1⟩ "web01.example.com" 0 demoKey = .ok serialZeroCert ∧
    serialZeroCert.Serial = 0 ∧
    dbS1.rows.filter (fun x => decide (x.hostname = "web01.example.com")) =
      [⟨1, "web01.example.com", demoKeyLine⟩] ∧
    certLine failingNextEnv serialZeroCert ≠ certLine failingNextEnv demoCert :=
  ⟨by rfl, by rfl, rfl, by decide, by decide⟩

/-- C4: on a table that satisfies its schema constraints, after a successful
`EnrollHost` for `H` the row of `H` has one id `i` (a fresh one, not in use
before, when `H` was absent); after any further sequence of successful
`EnrollHost` calls, for `H` or for other host names, the row of `H` still has
id `i`, and every row with id `i` is the row of `H`. -/
theorem EnrollHost_id_stable (w : Env) (conf : Config) (db db1 db2 : DB) (H : String)
    (r : http.Request) (s : String) (calls : List Call) (hv : db.Valid)
    (h0 : EnrollHost w ⟨conf, db⟩ H r = some (.ok s, db1))
    (hs : enrollAll conf db1 calls = some db2) :
    ∃ i, db1.selectId H = [i] ∧ db2.selectId H = [i] ∧
      (∀ a ∈ db2.rows, a.id = i → a.hostname = H) ∧
      (db.selectId H = [] → ∀ a ∈ db.rows, a.id ≠ i) := by
  obtain ⟨data, _, _, _, _, _, hup, _, _, _⟩ := EnrollHost_ok_steps h0
  obtain ⟨hv1, _⟩ := upsertHost_valid hv hup
  obtain ⟨⟨a, ha, _, haH, hfresh⟩, _⟩ := upsertHost_rows hv.1 hup
  have hmem : a ∈ db1.rows := by
    have : a ∈ db1.rows.filter (fun x => decide (x.hostname = H)) := by
      rw [ha]
      exact List.mem_singleton_self a
    exact (List.mem_filter.1 this).1
  obtain ⟨hv2, hkeep⟩ := enrollAll_valid conf calls db1 db2 hv1 hs
  obtain ⟨b, hb, hbi, hbh⟩ := hkeep a hmem
  refine ⟨a.id, ?_, ?_, ?_, ?_⟩
  · rw [← haH]
    exact selectId_of_mem hv1.1 hmem
  · rw [← haH, ← hbh, ← hbi]
    exact selectId_of_mem hv2.1 hb
  · intro x hx hxi
    have hxb : x = b :=
      List.inj_on_of_nodup_map hv2.2.1 hx hb (hxi.trans hbi.symm)
    rw [hxb, hbh, haH]
  · intro hnil x hx hxi
    have hlt := hv.2.2 x hx
    rw [hxi, hfresh hnil] at hlt
    exact Nat.lt_irrefl _ hlt

/-- C4 at scenarios S1, S4, S2: `web01.example.com` keeps id 1 through the
enrollment of `web01.internal` and its own re-enrollment. -/
theorem EnrollHost_id_stable_witness :
    ∃ i, dbS1.selectId "web01.example.com" = [i] ∧ dbS4.selectId "web01.example.com" = [i] ∧
      (∀ a ∈ dbS4.rows, a.id = i → a.hostname = "web01.example.com") ∧
      (DB.empty.selectId "web01.example.com" = [] → ∀ a ∈ DB.empty.rows, a.id ≠ i) :=
  EnrollHost_id_stable demoEnv demoConf DB.empty dbS1 dbS4 "web01.example.com"
    (requestFrom "web01.example.com" demoKeyLine) (certLine demoEnv demoCert) callsS4
    (by unfold DB.Valid DB.HostnamesUnique; decide) (by rfl) (by rfl)

/-- C9 (counterexample): `EnrollHost` stores the request body as submitted, and
the body may end in a newline. After one successful enrollment from the empty
table the dump holds two newlines, so two newline-terminated lines, for one
record. -/
theorem GetKnownHosts_lines_counterexample :
    EnrollHost demoEnv ⟨demoConf, DB.empty⟩ "web01.example.com"
      (requestFrom "web01.example.com" (demoKeyLine ++ "\n")) =
      some (.ok (certLine demoEnv demoCert), dbNewline) ∧
    GetKnownHosts demoEnv ⟨demoConf, dbNewline⟩ =
      .ok ("web01.example.com " ++ demoKeyLine ++ "\n\n") ∧
    ("web01.example.com " ++ demoKeyLine ++ "\n\n").data.count '\n' = 2 ∧
    dbNewline.rows.length = 1 ∧
    ("web01.example.com " ++ demoKeyLine ++ "\n\n").data.count '\n' ≠ dbNewline.rows.length :=
  ⟨by rfl, by rfl, by decide, rfl, by decide⟩

/-- C9 (amended): for a table reached from the empty one by successful
`EnrollHost` calls, a successful `GetKnownHosts` whose row iteration does not
fail returns, in row order, one `<hostname> <pubkey>` followed by a newline per
record; each pubkey is the body, exactly as submitted, of one of those calls
for that host name; when no stored host name or pubkey contains a newline, the
number of newlines in the output equals the number of records. -/
theorem GetKnownHosts_lines (w : Env) (conf : Config) (calls : List Call) (db : DB)
    (out : String) (hreach : enrollAll conf DB.empty calls = some db)
    (hnext : w.nextFault 1 = none) (h : GetKnownHosts w ⟨conf, db⟩ = .ok out) :
    out = knownHostsText db.rows ∧
    (∀ a ∈ db.rows, ∃ k ∈ calls, k.hostname = a.hostname ∧ k.r.Body = .ok a.pubkey) ∧
    ((∀ a ∈ db.rows, '\n' ∉ a.hostname.data ∧ '\n' ∉ a.pubkey.data) →
      out.data.count '\n' = db.rows.length) := by
  unfold GetKnownHosts at h
  split at h
  · cases h
  · unfold delivered at h
    rw [hnext] at h
    have hout := knownHostsLoop_ok db.rows "" out h
    have hout2 : out = knownHostsText db.rows := by
      rw [hout]
      apply String.ext
      simp [String.data_append]
    refine ⟨hout2, ?_, fun hn => by rw [hout2]; exact knownHostsText_count _ hn⟩
    intro a ha
    rcases enrollAll_row_origin conf calls DB.empty db hreach a ha with h0 | hk
    · cases h0
    · exact hk

/-- C9 (amended) at scenario S6: two records, two lines. -/
theorem GetKnownHosts_lines_witness :
    "web01.example.com " ++ demoKeyLine ++ "\nweb01.internal " ++ demoKeyLine ++ "\n" =
      knownHostsText dbS6.rows ∧
    (∀ a ∈ dbS6.rows, ∃ k ∈ callsS6, k.hostname = a.hostname ∧ k.r.Body = .ok a.pubkey) ∧
    ("web01.example.com " ++ demoKeyLine ++ "\nweb01.internal " ++ demoKeyLine ++ "\n").data.count
      '\n' = 2 :=
  have h := GetKnownHosts_lines demoEnv demoConf callsS6 dbS6
    ("web01.example.com " ++ demoKeyLine ++ "\nweb01.internal " ++ demoKeyLine ++ "\n")
    (by rfl) rfl (by rfl)
  ⟨h.1, h.2.1, h.2.2 (by decide)⟩

end Sharkey
